import Mathlib

/-!
Shallow embedding of the Available-Spot-Instances repository
(`spotplacementscore.py`, together with the shared helpers of `script.py`),
and proofs about its candidate-combination optimizer.

Numeric values (placement scores, spot prices) are modelled as exact
rationals.  External API calls are modelled by their outcome:
a placement-score query either raises `ClientError` or returns a list of
per-record `Score` values; a per-type price query either raises
`ClientError` or returns the price values of its `SpotPriceHistory`
records.  `main` is modelled from the point where the filtered instance
types are in hand, parameterised by oracles giving each query's outcome.
-/

/-- The `AMD_A_SERIES_INSTANCES` constant from the source. -/
def AMD_A_SERIES_INSTANCES : List String :=
  ["m5a", "r5a", "c6a", "m6a", "t3a", "r6a", "hpc6a", "g4ad", "m7a", "c7a", "r7a"]

/-- Python's `s.startswith(p)`, on the character sequences of the strings. -/
def startswith (s p : String) : Bool :=
  p.data.isPrefixOf s.data

/-- The per-item test of `get_filtered_instance_types`:
`any(it.startswith(prefix) for prefix in AMD_A_SERIES_INSTANCES)`. -/
def matchesAmdASeries (it : String) : Bool :=
  AMD_A_SERIES_INSTANCES.any (fun p => startswith it p)

/-- `get_filtered_instance_types`, modelled on the client side: the input is
the paginated universe (one list per `paginator.paginate` page, already
server-side filtered by vCPU/memory/usage-class), and the function appends
every item of every page that passes the AMD A-series check.  No
deduplication is performed anywhere in the loop. -/
def get_filtered_instance_types (pages : List (List String)) : List String :=
  pages.flatMap (fun page => page.filter matchesAmdASeries)

/-- `itertools.combinations(s, r)`: every length-`r` subsequence of `s`, in
the lexicographic order of the source indices (all tuples containing the
head first, then the tuples avoiding it). -/
def combinations {α : Type*} : List α → Nat → List (List α)
  | _, 0 => [[]]
  | [], _ + 1 => []
  | x :: xs, r + 1 => (combinations xs r).map (x :: ·) ++ combinations xs (r + 1)

/-- `powerset(iterable, min_size)` from the source:
`chain.from_iterable(combinations(s, r) for r in range(min_size, len(s)+1))`. -/
def powerset {α : Type*} (l : List α) (min_size : Nat) : List (List α) :=
  (List.range' min_size (l.length + 1 - min_size)).flatMap (combinations l)

/-- Outcome of one `get_spot_placement_scores` API call: a raised
`ClientError`, or a response whose `SpotPlacementScores` records carry the
given `Score` values (in response order). -/
inductive ScoreQueryResult where
  | clientError
  | ok (scores : List Rat)
deriving DecidableEq

/-- `get_average_spot_placement_score`: on `ClientError` the handler prints
and returns `0.0`; otherwise `sum(scores)/len(scores) if scores else 0.0`. -/
def get_average_spot_placement_score : ScoreQueryResult → Rat
  | .clientError => 0
  | .ok scores => if scores = [] then 0 else scores.sum / (scores.length : Rat)

/-- The prices `get_average_spot_price` collects: for each instance type the
query outcome is `none` (a `ClientError`, caught and skipped with
`continue`) or `some hs` (the `SpotPrice` values of the returned
`SpotPriceHistory` records, possibly empty); all retrieved values are
appended in order. -/
def retrievedPrices (outcomes : List (Option (List Rat))) : List Rat :=
  outcomes.flatMap (fun o => o.getD [])

/-- `get_average_spot_price`: mean of the collected prices, `0.0` when none
were collected. -/
def get_average_spot_price (outcomes : List (Option (List Rat))) : Rat :=
  let prices := retrievedPrices outcomes
  if prices = [] then 0 else prices.sum / (prices.length : Rat)

/-- Python's `round(x, ndigits)` on exact rationals: round half to even. -/
def pyround (x : Rat) (ndigits : Nat) : Rat :=
  let m : Rat := (10 : Rat) ^ ndigits
  let y : Rat := x * m
  let n : Int := y.floor
  let f : Rat := y - (n : Rat)
  let r : Int :=
    if f < 1 / 2 then n
    else if 1 / 2 < f then n + 1
    else if n % 2 = 0 then n else n + 1
  (r : Rat) / m

/-- One row appended to `results` in `main` (the CSV join of
`instance_set` is external serialization; the member list is kept). -/
structure Entry where
  instance_set : List String
  average_score : Rat
  average_price : Rat
  count : Nat
deriving DecidableEq

/-- One iteration of the evaluation loop in `main`: compute both averages,
then drop the combination iff `avg_score == 0.0`, else append the row with
`round(avg_score, 2)` and `round(avg_price, 4)`. -/
def evalCombo (subset : List String) (scoreResult : ScoreQueryResult)
    (priceOutcomes : List (Option (List Rat))) : Option Entry :=
  let avg_score := get_average_spot_placement_score scoreResult
  let avg_price := get_average_spot_price priceOutcomes
  if avg_score = 0 then none
  else some { instance_set := subset, average_score := pyround avg_score 2,
              average_price := pyround avg_price 4, count := subset.length }

/-- The comparison `results.sort(key=lambda x: (-score, price))` sorts by:
tuple `(-average_score, average_price)` of `a` lexicographically ≤ that of
`b`. -/
def sortLe (a b : Entry) : Prop :=
  b.average_score < a.average_score ∨
    (a.average_score = b.average_score ∧ a.average_price ≤ b.average_price)

instance : DecidableRel sortLe := fun _ _ =>
  inferInstanceAs (Decidable (_ ∨ _ ∧ _))

instance : IsTotal Entry sortLe := by
  constructor
  intro a b
  unfold sortLe
  rcases lt_trichotomy a.average_score b.average_score with h | h | h
  · exact Or.inr (Or.inl h)
  · rcases le_total a.average_price b.average_price with hp | hp
    · exact Or.inl (Or.inr ⟨h, hp⟩)
    · exact Or.inr (Or.inr ⟨h.symm, hp⟩)
  · exact Or.inl (Or.inl h)

instance : IsTrans Entry sortLe := by
  constructor
  intro a b c hab hbc
  unfold sortLe at *
  rcases hab with h1 | ⟨h1, p1⟩
  · rcases hbc with h2 | ⟨h2, _⟩
    · exact Or.inl (h2.trans h1)
    · exact Or.inl (h2 ▸ h1)
  · rcases hbc with h2 | ⟨h2, p2⟩
    · exact Or.inl (h1 ▸ h2)
    · exact Or.inr ⟨h1.trans h2, p1.trans p2⟩

/-- `results.sort(...)` is Python's stable sort by the key above; stable
sorting by a total preorder is extensionally insertion sort with that
non-strict comparison. -/
def sortResults (results : List Entry) : List Entry :=
  List.insertionSort sortLe results

/-- What one run of `main` produces past the candidate fetch: the sorted
`results` list (the full CSV body; the console shows its first five rows),
plus how many combinations were generated and how many placement-score
queries were issued. -/
structure RunOutcome where
  report : List Entry
  combosGenerated : Nat
  scoreQueries : Nat
deriving DecidableEq

/-- `main` from the point where `instance_types` is known: on an empty
candidate list print and `return` (no combinations, no queries); otherwise
evaluate every subset of `powerset(instance_types, 3)` — one placement
query per subset, one price query per member — and sort the rows. -/
def mainRun (instance_types : List String)
    (scoreOracle : List String → ScoreQueryResult)
    (priceOracle : String → Option (List Rat)) : RunOutcome :=
  if instance_types = [] then ⟨[], 0, 0⟩
  else
    let subsets := powerset instance_types 3
    let results := subsets.filterMap
      (fun s => evalCombo s (scoreOracle s) (s.map priceOracle))
    ⟨sortResults results, subsets.length, subsets.length⟩

/-! ### Combination generator: counting, membership, order -/

theorem length_mem_combinations {α : Type*} :
    ∀ {l : List α} {r : Nat} {c : List α}, c ∈ combinations l r → c.length = r
  | _, 0, c, hc => by
      simp only [combinations, List.mem_singleton] at hc
      simp [hc]
  | [], _ + 1, _, hc => by simp [combinations] at hc
  | _ :: xs, r + 1, c, hc => by
      simp only [combinations, List.mem_append, List.mem_map] at hc
      rcases hc with ⟨a, ha, rfl⟩ | hc
      · simp [length_mem_combinations ha]
      · exact length_mem_combinations hc

theorem sublist_of_mem_combinations {α : Type*} :
    ∀ {l c : List α} {r : Nat}, c ∈ combinations l r → List.Sublist c l
  | _, c, 0, hc => by
      simp only [combinations, List.mem_singleton] at hc
      simp [hc]
  | [], _, _ + 1, hc => by simp [combinations] at hc
  | x :: xs, c, r + 1, hc => by
      simp only [combinations, List.mem_append, List.mem_map] at hc
      rcases hc with ⟨a, ha, rfl⟩ | hc
      · exact List.cons_sublist_cons.mpr (sublist_of_mem_combinations ha)
      · exact (sublist_of_mem_combinations hc).trans (List.sublist_cons_self x xs)

theorem combinations_length {α : Type*} :
    ∀ (l : List α) (r : Nat), (combinations l r).length = l.length.choose r
  | _, 0 => by simp [combinations]
  | [], r + 1 => by simp [combinations]
  | x :: xs, r + 1 => by
      simp [combinations, combinations_length xs r, combinations_length xs (r + 1),
        Nat.choose_succ_succ]

theorem combinations_map {α β : Type*} (f : α → β) :
    ∀ (l : List α) (r : Nat), combinations (l.map f) r = (combinations l r).map (List.map f)
  | _, 0 => by simp [combinations]
  | [], r + 1 => by simp [combinations]
  | x :: xs, r + 1 => by
      simp [combinations, combinations_map f xs r, combinations_map f xs (r + 1),
        List.map_map, Function.comp_def]

theorem combinations_pairwise_lex {α : Type*} {rel : α → α → Prop} :
    ∀ {l : List α} (r : Nat), l.Pairwise rel →
      (combinations l r).Pairwise (List.Lex rel)
  | _, 0, _ => by simp [combinations]
  | [], _ + 1, _ => by simp [combinations]
  | x :: xs, r + 1, hl => by
      obtain ⟨hx, hxs⟩ := List.pairwise_cons.mp hl
      rw [combinations, List.pairwise_append]
      refine ⟨?_, combinations_pairwise_lex (r + 1) hxs, ?_⟩
      · rw [List.pairwise_map]
        exact (combinations_pairwise_lex r hxs).imp fun h => List.Lex.cons h
      · intro a ha b hb
        simp only [List.mem_map] at ha
        obtain ⟨a0, _, rfl⟩ := ha
        have hbne : b ≠ [] := by
          intro h
          have := length_mem_combinations hb
          rw [h] at this
          simp at this
        have hhead : b.head hbne ∈ xs := (sublist_of_mem_combinations hb).head_mem hbne
        have hlex : List.Lex rel (x :: a0) (b.head hbne :: b.tail) :=
          List.Lex.rel (hx _ hhead)
        rwa [List.head_cons_tail] at hlex

theorem combinations_pairwise_toFinset_ne {α : Type*} [DecidableEq α] :
    ∀ {l : List α} (r : Nat), l.Nodup →
      (combinations l r).Pairwise fun a b => a.toFinset ≠ b.toFinset
  | _, 0, _ => by simp [combinations]
  | [], _ + 1, _ => by simp [combinations]
  | x :: xs, r + 1, hl => by
      obtain ⟨hx, hxs⟩ := List.nodup_cons.mp hl
      rw [combinations, List.pairwise_append]
      refine ⟨?_, combinations_pairwise_toFinset_ne (r + 1) hxs, ?_⟩
      · rw [List.pairwise_map]
        refine (combinations_pairwise_toFinset_ne r hxs).imp_of_mem ?_
        intro a b ha hb hne heq
        apply hne
        have hxa : x ∉ a.toFinset := by
          simp only [List.mem_toFinset]
          exact fun hmem => hx ((sublist_of_mem_combinations ha).subset hmem)
        have hxb : x ∉ b.toFinset := by
          simp only [List.mem_toFinset]
          exact fun hmem => hx ((sublist_of_mem_combinations hb).subset hmem)
        simp only [List.toFinset_cons] at heq
        have := congrArg (fun t => t.erase x) heq
        simpa [Finset.erase_insert hxa, Finset.erase_insert hxb] using this
      · intro a ha b hb
        simp only [List.mem_map] at ha
        obtain ⟨a0, _, rfl⟩ := ha
        intro heq
        have hxa : x ∈ (x :: a0).toFinset := by simp
        have hxb : x ∉ b.toFinset := by
          simp only [List.mem_toFinset]
          exact fun hmem => hx ((sublist_of_mem_combinations hb).subset hmem)
        rw [heq] at hxa
        exact hxb hxa

theorem sum_map_range' (f : Nat → Nat) :
    ∀ (b a : Nat), ((List.range' a b).map f).sum = ∑ k ∈ Finset.Ico a (a + b), f k
  | 0, a => by simp
  | b + 1, a => by
      rw [List.range'_succ, List.map_cons, List.sum_cons, sum_map_range' f b (a + 1),
        show a + (b + 1) = a + 1 + b by omega,
        Finset.sum_eq_sum_Ico_succ_bot (show a < a + 1 + b by omega)]

theorem powerset_length {α : Type*} (l : List α) (m : Nat) :
    (powerset l m).length = ∑ k ∈ Finset.Icc m l.length, l.length.choose k := by
  rw [powerset, List.length_flatMap]
  have h1 : List.map (List.length ∘ combinations l) (List.range' m (l.length + 1 - m)) =
      List.map (fun r => l.length.choose r) (List.range' m (l.length + 1 - m)) :=
    List.map_congr_left fun r _ => combinations_length l r
  rw [h1, sum_map_range']
  by_cases hm : m ≤ l.length + 1
  · rw [show m + (l.length + 1 - m) = l.length + 1 by omega, Nat.Ico_succ_right]
  · rw [show l.length + 1 - m = 0 by omega]
    rw [Finset.Ico_eq_empty (by omega), Finset.Icc_eq_empty (by omega)]

theorem mem_powerset_size {α : Type*} {l c : List α} {m : Nat} (hc : c ∈ powerset l m) :
    m ≤ c.length ∧ c.length ≤ l.length := by
  rw [powerset, List.mem_flatMap] at hc
  obtain ⟨r, hr, hcr⟩ := hc
  rw [List.mem_range'_1] at hr
  have h1 := length_mem_combinations hcr
  have h2 := (sublist_of_mem_combinations hcr).length_le
  omega

theorem powerset_pairwise_toFinset_ne {α : Type*} [DecidableEq α] {l : List α} (m : Nat)
    (hl : l.Nodup) :
    (powerset l m).Pairwise fun a b => a.toFinset ≠ b.toFinset := by
  rw [powerset, List.flatMap_def, List.pairwise_flatten]
  constructor
  · intro c hc
    simp only [List.mem_map] at hc
    obtain ⟨r, _, rfl⟩ := hc
    exact combinations_pairwise_toFinset_ne r hl
  · rw [List.pairwise_map]
    refine (List.pairwise_lt_range' _ _).imp_of_mem ?_
    intro r1 r2 _ _ hlt x hx y hy heq
    have hx1 : x.length = r1 := length_mem_combinations hx
    have hy1 : y.length = r2 := length_mem_combinations hy
    have hnx : x.Nodup := List.Nodup.sublist (sublist_of_mem_combinations hx) hl
    have hny : y.Nodup := List.Nodup.sublist (sublist_of_mem_combinations hy) hl
    have cx := List.toFinset_card_of_nodup hnx
    have cy := List.toFinset_card_of_nodup hny
    rw [heq] at cx
    omega

/-- Claim C4: for a candidate list of `n` distinct elements and minimum size
`m`, `powerset` produces exactly `Σ_{k=m}^{n} C(n,k)` subsets, each of
cardinality between `m` and `n`, and no subset (as a set of members) is
produced twice. -/
theorem powerset_count_sizes_distinct {α : Type*} [DecidableEq α] (l : List α) (m : Nat)
    (hl : l.Nodup) :
    (powerset l m).length = ∑ k ∈ Finset.Icc m l.length, l.length.choose k ∧
      (∀ c ∈ powerset l m, m ≤ c.length ∧ c.length ≤ l.length) ∧
      (powerset l m).Pairwise fun a b => a.toFinset ≠ b.toFinset :=
  ⟨powerset_length l m, fun _ hc => mem_powerset_size hc, powerset_pairwise_toFinset_ne m hl⟩

/-- Witness for Claim C4 at the spec scenario `{a,b,c,d}`, `minSize = 3`:
`C(4,3) + C(4,4) = 5` subsets of sizes 3 and 4, pairwise distinct. -/
theorem powerset_count_sizes_distinct_witness :
    (["a","b","c","d"] : List String).Nodup ∧
      ((powerset (["a","b","c","d"] : List String) 3).length =
          ∑ k ∈ Finset.Icc 3 (["a","b","c","d"] : List String).length,
            (["a","b","c","d"] : List String).length.choose k ∧
        (∀ c ∈ powerset (["a","b","c","d"] : List String) 3,
          3 ≤ c.length ∧ c.length ≤ (["a","b","c","d"] : List String).length) ∧
        (powerset (["a","b","c","d"] : List String) 3).Pairwise
          fun a b => a.toFinset ≠ b.toFinset) :=
  ⟨by decide, powerset_count_sizes_distinct ["a","b","c","d"] 3 (by decide)⟩

theorem map_indexOf_self {α : Type*} [DecidableEq α] {l : List α} (hl : l.Nodup) :
    (l.map fun x => List.indexOf x l) = List.range l.length := by
  apply List.ext_getElem
  · simp
  · intro n h1 h2
    simp only [List.getElem_map, List.getElem_range]
    exact List.indexOf_getElem hl n (by simpa using h1)

/-- Claim C7: the generator's emission order is deterministic and fully
described: sizes ascending from `min_size` to the full set, and within one
size, strictly increasing lexicographic order of the member-index sequences
under the candidate list's fixed indexing.  (Determinism across invocations
is immediate: `powerset` is a pure function of its arguments.) -/
theorem powerset_emission_order {α : Type*} [DecidableEq α] (l : List α) (m : Nat)
    (hl : l.Nodup) :
    (powerset l m).Pairwise fun a b =>
      a.length < b.length ∨
        a.length = b.length ∧
          List.Lex (· < ·) (a.map fun x => List.indexOf x l)
            (b.map fun x => List.indexOf x l) := by
  rw [powerset, List.flatMap_def, List.pairwise_flatten]
  constructor
  · intro c hc
    simp only [List.mem_map] at hc
    obtain ⟨r, _, rfl⟩ := hc
    have h1 : (combinations (l.map fun x => List.indexOf x l) r).Pairwise
        (List.Lex (· < ·)) := by
      rw [map_indexOf_self hl]
      exact combinations_pairwise_lex r (List.sorted_lt_range _)
    rw [combinations_map] at h1
    rw [List.pairwise_map] at h1
    refine h1.imp_of_mem ?_
    intro a b ha hb hab
    refine Or.inr ⟨?_, hab⟩
    rw [length_mem_combinations ha, length_mem_combinations hb]
  · rw [List.pairwise_map]
    refine (List.pairwise_lt_range' _ _).imp_of_mem ?_
    intro r1 r2 _ _ h12 x hx y hy
    refine Or.inl ?_
    rw [length_mem_combinations hx, length_mem_combinations hy]
    exact h12

/-- Witness for Claim C7 at the spec scenario: with candidates
`["a","b","c","d"]` and `minSize = 3` the emitted sequence is exactly
`abc, abd, acd, bcd, abcd`, and the order property holds for it. -/
theorem powerset_emission_order_witness :
    (["a","b","c","d"] : List String).Nodup ∧
      powerset (["a","b","c","d"] : List String) 3 =
        [["a","b","c"], ["a","b","d"], ["a","c","d"], ["b","c","d"], ["a","b","c","d"]] ∧
      (powerset (["a","b","c","d"] : List String) 3).Pairwise fun a b =>
        a.length < b.length ∨
          a.length = b.length ∧
            List.Lex (· < ·) (a.map fun x => List.indexOf x ["a","b","c","d"])
              (b.map fun x => List.indexOf x ["a","b","c","d"]) :=
  ⟨by decide, by decide, powerset_emission_order ["a","b","c","d"] 3 (by decide)⟩

/-! ### Evaluation loop and report membership -/

theorem evalCombo_eq_none_iff (s : List String) (q : ScoreQueryResult)
    (p : List (Option (List Rat))) :
    evalCombo s q p = none ↔ get_average_spot_placement_score q = 0 := by
  unfold evalCombo
  by_cases h : get_average_spot_placement_score q = 0 <;> simp [h]

theorem evalCombo_of_ne (s : List String) (q : ScoreQueryResult)
    (p : List (Option (List Rat))) (h : get_average_spot_placement_score q ≠ 0) :
    evalCombo s q p = some
      { instance_set := s,
        average_score := pyround (get_average_spot_placement_score q) 2,
        average_price := pyround (get_average_spot_price p) 4,
        count := s.length } := by
  unfold evalCombo
  simp [h]

theorem evalCombo_instance_set {s : List String} {q : ScoreQueryResult}
    {p : List (Option (List Rat))} {e : Entry}
    (h : evalCombo s q p = some e) : e.instance_set = s := by
  unfold evalCombo at h
  by_cases h0 : get_average_spot_placement_score q = 0
  · simp [h0] at h
  · simp only [h0, if_neg, ite_false] at h
    rw [← Option.some.injEq] at h
    cases h
    rfl

theorem mem_report_iff (types : List String)
    (scoreOracle : List String → ScoreQueryResult)
    (priceOracle : String → Option (List Rat)) (e : Entry) :
    e ∈ (mainRun types scoreOracle priceOracle).report ↔
      ∃ s ∈ powerset types 3,
        evalCombo s (scoreOracle s) (s.map priceOracle) = some e := by
  unfold mainRun
  by_cases ht : types = []
  · subst ht
    simp [show powerset ([] : List String) 3 = [] from rfl]
  · simp [ht, sortResults, List.mem_insertionSort, List.mem_filterMap]

/-- Claim C1 (amended): a combination whose placement query fails, or
succeeds with no scores, is absent from the ranked results; but a
combination whose query succeeds with at least one score is included if and
only if the mean of the returned scores is nonzero — `main` skips on
`avg_score == 0.0`, so an all-zero (mean-zero) successful response is
conflated with "no data" and Skipped, not ranked with aggregateScore 0. -/
theorem skip_vs_zero (types : List String)
    (scoreOracle : List String → ScoreQueryResult)
    (priceOracle : String → Option (List Rat)) (s : List String)
    (hs : s ∈ powerset types 3) :
    (scoreOracle s = .clientError →
        ∀ e ∈ (mainRun types scoreOracle priceOracle).report, e.instance_set ≠ s) ∧
      (scoreOracle s = .ok [] →
        ∀ e ∈ (mainRun types scoreOracle priceOracle).report, e.instance_set ≠ s) ∧
      ∀ scores, scoreOracle s = .ok scores → scores ≠ [] →
        ((∃ e ∈ (mainRun types scoreOracle priceOracle).report, e.instance_set = s) ↔
          scores.sum / (scores.length : Rat) ≠ 0) := by
  have habsent : get_average_spot_placement_score (scoreOracle s) = 0 →
      ∀ e ∈ (mainRun types scoreOracle priceOracle).report, e.instance_set ≠ s := by
    intro h0 e he heq
    rw [mem_report_iff] at he
    obtain ⟨s', _, hev⟩ := he
    have hss : s' = s := by rw [← evalCombo_instance_set hev, heq]
    rw [hss, (evalCombo_eq_none_iff _ _ _).mpr h0] at hev
    exact Option.noConfusion hev
  refine ⟨?_, ?_, ?_⟩
  · intro herr
    exact habsent (by rw [herr]; rfl)
  · intro hempty
    exact habsent (by rw [hempty]; simp [get_average_spot_placement_score])
  · intro scores hsc hne
    have havg : get_average_spot_placement_score (scoreOracle s) =
        scores.sum / (scores.length : Rat) := by
      rw [hsc]
      simp [get_average_spot_placement_score, hne]
    constructor
    · rintro ⟨e, he, heq⟩ hzero
      exact habsent (by rw [havg]; exact hzero) e he heq
    · intro hnz
      refine ⟨_, (mem_report_iff _ _ _ _).mpr ⟨s, hs, evalCombo_of_ne s _ _ ?_⟩, rfl⟩
      rw [havg]
      exact hnz

/-- Witness for Claim C1 at a concrete run: one combination, successful
query with nonzero mean, included in the report. -/
theorem skip_vs_zero_witness :
    (["a","b","c"] ∈ powerset ["a","b","c"] 3) ∧
      (((fun _ : List String => ScoreQueryResult.ok [50]) ["a","b","c"] = .clientError →
          ∀ e ∈ (mainRun ["a","b","c"] (fun _ => .ok [50]) (fun _ => none)).report,
            e.instance_set ≠ ["a","b","c"]) ∧
        ((fun _ : List String => ScoreQueryResult.ok [50]) ["a","b","c"] = .ok [] →
          ∀ e ∈ (mainRun ["a","b","c"] (fun _ => .ok [50]) (fun _ => none)).report,
            e.instance_set ≠ ["a","b","c"]) ∧
        ∀ scores, (fun _ : List String => ScoreQueryResult.ok [50]) ["a","b","c"] = .ok scores →
          scores ≠ [] →
          ((∃ e ∈ (mainRun ["a","b","c"] (fun _ => .ok [50]) (fun _ => none)).report,
              e.instance_set = ["a","b","c"]) ↔
            scores.sum / (scores.length : Rat) ≠ 0)) :=
  ⟨by decide, skip_vs_zero ["a","b","c"] (fun _ => .ok [50]) (fun _ => none) ["a","b","c"]
    (by decide)⟩

/-- Claim C1 counterexample: the placement query succeeds and returns the
non-empty score list `[0, 0, 0]` for the only generated combination, yet
the ranked report is empty — the combination was Skipped, not ranked with
aggregateScore 0 as the claim states. -/
theorem zero_score_success_is_skipped :
    (["a","b","c"] ∈ powerset ["a","b","c"] 3) ∧
      (mainRun ["a","b","c"] (fun _ => .ok [0, 0, 0]) (fun _ => none)).report = [] := by
  refine ⟨by decide, ?_⟩
  norm_num [mainRun, powerset, combinations, List.range', evalCombo,
    get_average_spot_placement_score, get_average_spot_price, retrievedPrices,
    sortResults, List.cons_ne_nil]

/-- Claim C2: for a successful placement query with a non-empty score list,
the aggregate score is the arithmetic mean of the returned scores; in the
spec's scenario (scores 80, 60, 0; prices 0.10, 0.12, not-found) the stored
row carries `round(140/3, 2) = 46.67` and price 0.11. -/
theorem aggregateScore_mean (scores : List Rat) (h : scores ≠ []) :
    get_average_spot_placement_score (.ok scores) = scores.sum / (scores.length : Rat) ∧
      evalCombo ["x","y","z"] (.ok [80, 60, 0]) [some [1/10], some [12/100], none] =
        some { instance_set := ["x","y","z"], average_score := 4667/100,
               average_price := 11/100, count := 3 } := by
  constructor
  · simp [get_average_spot_placement_score, h]
  · norm_num [evalCombo, get_average_spot_placement_score, get_average_spot_price,
      retrievedPrices, pyround, Rat.floor, List.cons_ne_nil]

/-- Witness for Claim C2 at the scenario's score list `[80, 60, 0]`:
the mean is `140/3` and the stored row holds 46.67. -/
theorem aggregateScore_mean_witness :
    ([80, 60, 0] : List Rat) ≠ [] ∧
      (get_average_spot_placement_score (.ok [80, 60, 0]) =
          ([80, 60, 0] : List Rat).sum / (([80, 60, 0] : List Rat).length : Rat) ∧
        evalCombo ["x","y","z"] (.ok [80, 60, 0]) [some [1/10], some [12/100], none] =
          some { instance_set := ["x","y","z"], average_score := 4667/100,
                 average_price := 11/100, count := 3 }) :=
  ⟨by simp, aggregateScore_mean [80, 60, 0] (by simp)⟩

/-- Claim C5: the aggregate price is the arithmetic mean of the prices that
were successfully retrieved; a failed lookup (`ClientError`) or an empty
price history contributes nothing to the mean, and the skip decision is
independent of the price outcomes, so a price failure never causes a Skip.
The spec scenario's prices (0.10, 0.12, not-found) average to 0.11. -/
theorem aggregatePrice_mean (outcomes : List (Option (List Rat)))
    (h : retrievedPrices outcomes ≠ []) :
    get_average_spot_price outcomes =
        (retrievedPrices outcomes).sum / ((retrievedPrices outcomes).length : Rat) ∧
      (∀ os, retrievedPrices (os ++ [none]) = retrievedPrices os) ∧
      (∀ os, retrievedPrices (os ++ [some []]) = retrievedPrices os) ∧
      (∀ s q p1 p2, (evalCombo s q p1).isSome = (evalCombo s q p2).isSome) ∧
      get_average_spot_price [some [1/10], some [12/100], none] = 11/100 := by
  refine ⟨?_, ?_, ?_, ?_, ?_⟩
  · simp [get_average_spot_price, h]
  · intro os
    simp [retrievedPrices]
  · intro os
    simp [retrievedPrices]
  · intro s q p1 p2
    by_cases h0 : get_average_spot_placement_score q = 0 <;> simp [evalCombo, h0]
  · norm_num [get_average_spot_price, retrievedPrices, List.cons_ne_nil]

/-- Witness for Claim C5 at the scenario's price outcomes. -/
theorem aggregatePrice_mean_witness :
    retrievedPrices [some [1/10], some [12/100], none] ≠ [] ∧
      (get_average_spot_price [some [1/10], some [12/100], none] =
          (retrievedPrices [some [1/10], some [12/100], none]).sum /
            ((retrievedPrices [some [1/10], some [12/100], none]).length : Rat) ∧
        (∀ os, retrievedPrices (os ++ [none]) = retrievedPrices os) ∧
        (∀ os, retrievedPrices (os ++ [some []]) = retrievedPrices os) ∧
        (∀ s q p1 p2, (evalCombo s q p1).isSome = (evalCombo s q p2).isSome) ∧
        get_average_spot_price [some [1/10], some [12/100], none] = 11/100) :=
  ⟨by simp [retrievedPrices], aggregatePrice_mean _ (by simp [retrievedPrices])⟩

/-- Claim C8: with zero eligible instance types, `main` returns before
generating combinations: the outcome (a normal return, not an exception) is
an empty report, zero combinations generated, zero score queries issued. -/
theorem empty_candidates_short_circuit (scoreOracle : List String → ScoreQueryResult)
    (priceOracle : String → Option (List Rat)) :
    mainRun [] scoreOracle priceOracle = ⟨[], 0, 0⟩ := by
  simp [mainRun]

/-- Witness for Claim C8 at concrete oracles. -/
theorem empty_candidates_short_circuit_witness :
    mainRun [] (fun _ => ScoreQueryResult.clientError) (fun _ => none) = ⟨[], 0, 0⟩ :=
  empty_candidates_short_circuit _ _

/-- Claim C10: when every per-type price lookup fails (`none`, a
`ClientError`) or returns no price history (`some []`, an empty
`SpotPriceHistory`), the aggregate price is `0.0` (not undefined); the
combination is still ranked whenever its average score is nonzero; and in
the sorted report an entry with price 0 never appears strictly after an
equally-scored entry with positive price. -/
theorem all_price_failures (outcomes : List (Option (List Rat)))
    (h : ∀ o ∈ outcomes, o = none ∨ o = some []) :
    get_average_spot_price outcomes = 0 ∧
      (∀ s q, get_average_spot_placement_score q ≠ 0 → (evalCombo s q outcomes).isSome) ∧
      ∀ a b : Entry, a.average_score = b.average_score → a.average_price = 0 →
        0 < b.average_price → ∀ l l1 l2 l3 : List Entry,
          sortResults l ≠ l1 ++ b :: (l2 ++ a :: l3) := by
  have hret : retrievedPrices outcomes = [] := by
    rw [retrievedPrices, List.flatMap_eq_nil_iff]
    intro o ho
    rcases h o ho with h' | h' <;> rw [h'] <;> rfl
  refine ⟨?_, ?_, ?_⟩
  · simp [get_average_spot_price, hret]
  · intro s q hq
    simp [evalCombo, hq]
  · intro a b hsc hap hbp l l1 l2 l3 heq
    have hpair : (sortResults l).Pairwise sortLe := List.sorted_insertionSort sortLe l
    rw [heq] at hpair
    have hsub : List.Sublist [b, a] (l1 ++ b :: (l2 ++ a :: l3)) := by
      refine List.Sublist.trans ?_ (List.sublist_append_right l1 _)
      refine List.cons_sublist_cons.mpr ?_
      refine List.Sublist.trans ?_ (List.sublist_append_right l2 _)
      exact List.cons_sublist_cons.mpr (List.nil_sublist l3)
    have hba : sortLe b a := List.pairwise_pair.mp (hpair.sublist hsub)
    rcases hba with h1 | ⟨h1, h2⟩
    · rw [hsc] at h1
      exact lt_irrefl _ h1
    · rw [hap] at h2
      exact absurd h2 (not_le.mpr hbp)

/-- Witness for Claim C10 with one empty price history and one failed
price lookup. -/
theorem all_price_failures_witness :
    (∀ o ∈ ([some [], none] : List (Option (List Rat))), o = none ∨ o = some []) ∧
      (get_average_spot_price [some [], none] = 0 ∧
        (∀ s q, get_average_spot_placement_score q ≠ 0 →
          (evalCombo s q [some [], none]).isSome) ∧
        ∀ a b : Entry, a.average_score = b.average_score → a.average_price = 0 →
          0 < b.average_price → ∀ l l1 l2 l3 : List Entry,
            sortResults l ≠ l1 ++ b :: (l2 ++ a :: l3)) :=
  ⟨by simp, all_price_failures [some [], none] (by simp)⟩

/-- Claim C3 (amended): the report is sorted by the key
`(-average_score, average_price)` — aggregate score descending, then
aggregate price ascending — and is a permutation of the evaluated rows; but
the tie-break beyond those two keys is NOT lexicographic: Python's sort is
stable, so rows tying on both keys keep their evaluation (generation)
order. -/
theorem report_sort_order (types : List String)
    (scoreOracle : List String → ScoreQueryResult)
    (priceOracle : String → Option (List Rat)) :
    List.Sorted sortLe (mainRun types scoreOracle priceOracle).report ∧
      (mainRun types scoreOracle priceOracle).report.Perm
        ((powerset types 3).filterMap fun s =>
          evalCombo s (scoreOracle s) (s.map priceOracle)) ∧
      ∀ a b : Entry, sortLe a b →
        List.Sublist [a, b] ((powerset types 3).filterMap fun s =>
          evalCombo s (scoreOracle s) (s.map priceOracle)) →
        List.Sublist [a, b] (mainRun types scoreOracle priceOracle).report := by
  by_cases ht : types = []
  · subst ht
    refine ⟨?_, ?_, ?_⟩
    · simp [mainRun]
    · simp [mainRun, show powerset ([] : List String) 3 = [] from rfl]
    · intro a b _ hsub
      rw [show powerset ([] : List String) 3 = [] from rfl] at hsub
      simp at hsub
  · simp only [mainRun, if_neg ht]
    exact ⟨List.sorted_insertionSort sortLe _, List.perm_insertionSort sortLe _,
      fun a b hab hsub => List.pair_sublist_insertionSort hab hsub⟩

/-- Witness for Claim C3 at a concrete two-combination run. -/
theorem report_sort_order_witness :
    List.Sorted sortLe
        (mainRun ["a","b","c","d"] (fun _ => .ok [40]) (fun _ => some [3/10])).report ∧
      (mainRun ["a","b","c","d"] (fun _ => .ok [40]) (fun _ => some [3/10])).report.Perm
        ((powerset ["a","b","c","d"] 3).filterMap fun s =>
          evalCombo s ((fun _ => ScoreQueryResult.ok [40]) s)
            (s.map fun _ => some [3/10])) ∧
      ∀ a b : Entry, sortLe a b →
        List.Sublist [a, b] ((powerset ["a","b","c","d"] 3).filterMap fun s =>
          evalCombo s ((fun _ => ScoreQueryResult.ok [40]) s)
            (s.map fun _ => some [3/10])) →
        List.Sublist [a, b]
          (mainRun ["a","b","c","d"] (fun _ => .ok [40]) (fun _ => some [3/10])).report :=
  report_sort_order ["a","b","c","d"] (fun _ => .ok [40]) (fun _ => some [3/10])

/-- Claim C3 counterexample: all five combinations tie on both keys
(score 50, price 0).  The code's stable sort leaves them in generation
order, so the lexicographically smaller member sequence
`["a","b","c","d"]` appears after `["a","b","d"]`, contradicting the
claimed lexicographic tertiary tie-break. -/
theorem tie_break_not_lexicographic :
    (mainRun ["a","b","c","d"] (fun _ => .ok [50]) (fun _ => none)).report =
        [⟨["a","b","c"], 50, 0, 3⟩, ⟨["a","b","d"], 50, 0, 3⟩, ⟨["a","c","d"], 50, 0, 3⟩,
          ⟨["b","c","d"], 50, 0, 3⟩, ⟨["a","b","c","d"], 50, 0, 4⟩] ∧
      List.Lex (· < ·) (["a","b","c","d"] : List String) ["a","b","d"] := by
  constructor
  · norm_num [mainRun, powerset, combinations, List.range', evalCombo,
      get_average_spot_placement_score, get_average_spot_price, retrievedPrices,
      sortResults, sortLe, pyround, Rat.floor, List.cons_ne_nil]
  · exact List.Lex.cons (List.Lex.cons (List.Lex.rel
      (by rw [String.lt_iff_toList_lt]; decide)))

/-- Claim C6 (amended): when the score source raises a client error for
exactly one combination, the run still issues one placement query per
generated combination (evaluation of the rest proceeds), and every other
combination whose average placement score is nonzero appears in the ranked
report.  (A combination whose query succeeds but averages zero is also
dropped — see the Claim C1 analysis — so "all other N−1 combinations"
is too strong.) -/
theorem failure_isolation (types : List String)
    (scoreOracle : List String → ScoreQueryResult)
    (priceOracle : String → Option (List Rat)) (s₀ : List String)
    (herr : scoreOracle s₀ = .clientError)
    (huniq : ∀ s ∈ powerset types 3, scoreOracle s = .clientError → s = s₀) :
    (mainRun types scoreOracle priceOracle).scoreQueries = (powerset types 3).length ∧
      ∀ s ∈ powerset types 3, get_average_spot_placement_score (scoreOracle s) ≠ 0 →
        ∃ e ∈ (mainRun types scoreOracle priceOracle).report, e.instance_set = s := by
  constructor
  · by_cases ht : types = []
    · subst ht
      simp [mainRun, show powerset ([] : List String) 3 = [] from rfl]
    · simp [mainRun, ht]
  · intro s hs h0
    exact ⟨_, (mem_report_iff _ _ _ _).mpr ⟨s, hs, evalCombo_of_ne s _ _ h0⟩, rfl⟩

/-- Witness for Claim C6: the source errors exactly for `["a","b","c"]`;
all five queries are issued and the other four combinations are ranked. -/
theorem failure_isolation_witness :
    (mainRun ["a","b","c","d"]
        (fun s => if s = ["a","b","c"] then ScoreQueryResult.clientError
          else ScoreQueryResult.ok [50]) (fun _ => none)).scoreQueries =
      (powerset ["a","b","c","d"] 3).length ∧
      ∀ s ∈ powerset ["a","b","c","d"] 3,
        get_average_spot_placement_score
          ((fun s => if s = ["a","b","c"] then ScoreQueryResult.clientError
            else ScoreQueryResult.ok [50]) s) ≠ 0 →
        ∃ e ∈ (mainRun ["a","b","c","d"]
            (fun s => if s = ["a","b","c"] then ScoreQueryResult.clientError
              else ScoreQueryResult.ok [50]) (fun _ => none)).report,
          e.instance_set = s :=
  failure_isolation ["a","b","c","d"] _ (fun _ => none) ["a","b","c"]
    (by decide) (by decide)

/-- Claim C6 counterexample: among the five generated combinations the
score source errors for exactly one (`["a","b","c"]`), yet a second
combination (`["a","b","d"]`, which successfully returns scores `[0,0,0]`)
is also absent from the ranked report — so it is not true that the other
N−1 combinations are always present. -/
theorem failure_isolation_cex :
    (∀ s ∈ powerset ["a","b","c","d"] 3,
        ((if s = ["a","b","c"] then ScoreQueryResult.clientError
          else if s = ["a","b","d"] then ScoreQueryResult.ok [0, 0, 0]
          else ScoreQueryResult.ok [50]) = ScoreQueryResult.clientError ↔
          s = ["a","b","c"])) ∧
      ¬ ∃ e ∈ (mainRun ["a","b","c","d"]
          (fun s => if s = ["a","b","c"] then ScoreQueryResult.clientError
            else if s = ["a","b","d"] then ScoreQueryResult.ok [0, 0, 0]
            else ScoreQueryResult.ok [50])
          (fun _ => none)).report, e.instance_set = ["a","b","d"] := by
  constructor
  · decide
  · rintro ⟨e, he, heq⟩
    rw [mem_report_iff] at he
    obtain ⟨s', _, hev⟩ := he
    have hss : s' = ["a","b","d"] := by rw [← evalCombo_instance_set hev, heq]
    subst hss
    have h1 : (["a","b","d"] : List String) ≠ ["a","b","c"] := by decide
    have hev' : evalCombo ["a","b","d"] (ScoreQueryResult.ok [0, 0, 0])
        (["a","b","d"].map fun _ => none) = some e := by
      simpa [h1] using hev
    rw [(evalCombo_eq_none_iff _ _ _).mpr
      (by norm_num [get_average_spot_placement_score, List.cons_ne_nil])] at hev'
    exact Option.noConfusion hev'

/-- Claim C9 (amended): the catalog filter preserves the multiplicity of
the paginated input — its output is exactly the concatenation of the pages
filtered by the AMD A-series test, with no deduplication — so each
identifier appears at most once only when it appears at most once across
all batches; identifiers repeated across batches are repeated in the
candidate list. -/
theorem filter_multiplicity (pages : List (List String)) :
    get_filtered_instance_types pages =
        (pages.flatMap id).filter matchesAmdASeries ∧
      ((pages.flatMap id).Nodup → (get_filtered_instance_types pages).Nodup) := by
  have h1 : get_filtered_instance_types pages =
      (pages.flatMap id).filter matchesAmdASeries := by
    unfold get_filtered_instance_types
    rw [List.filter_flatMap]
    simp
  exact ⟨h1, fun hn => by rw [h1]; exact hn.filter _⟩

/-- Witness for Claim C9 on a duplicate-free paginated universe. -/
theorem filter_multiplicity_witness :
    get_filtered_instance_types [["m5a.large"], ["t3a.micro"]] =
        (([["m5a.large"], ["t3a.micro"]] : List (List String)).flatMap id).filter
          matchesAmdASeries ∧
      ((([["m5a.large"], ["t3a.micro"]] : List (List String)).flatMap id).Nodup →
        (get_filtered_instance_types [["m5a.large"], ["t3a.micro"]]).Nodup) :=
  filter_multiplicity [["m5a.large"], ["t3a.micro"]]

/-- Claim C9 counterexample: the identifier `"m5a.large"` appears in two
batches of the paginated input; the filter's candidate list contains it
twice, not at most once. -/
theorem duplicate_across_batches :
    (get_filtered_instance_types [["m5a.large"], ["m5a.large"]]).count "m5a.large" = 2 := by
  decide
